import Mathlib

/-!
Shallow embedding of the command-tree core of the cobra repository
(src/cobra.go): the Command node, the resolver Command.Find, the
dispatcher Command.execute, the flag merger Command.mergePersistentFlags,
Command.AddCommand and Command.CommandPath.

Conventions of the embedding:
* A command tree reached by value traversal (Find, execute) is the
  inductive Cmd: explicit name, usage line, whether Run is non-nil, and
  the ordered list of children (insertion order, as built by AddCommand).
* Go runtime panics are explicit outcomes (ExecResult.panicked,
  AddResult.panicked), since the source can and does reach them.
* A pflag FlagSet is a list of (name, definition identity) pairs;
  Lookup is the first entry with the given name, AddFlag appends.
  The definition identity (a Nat) stands for the pointer identity of
  the shared *Flag object that pflag hands around by reference.
* The parent-pointer operations (AddCommand, CommandPath) act on a
  state of nodes addressed by Nat ids, with parent, commander and
  children assignments as functions, mirroring the mutable fields.
-/

namespace Cobra

/-- A command node as in cobra.go: the explicit name field, the Use line,
whether the Run action is set, and the ordered children list. -/
inductive Cmd where
  | mk (explicitName : String) (use : String) (runnable : Bool)
       (children : List Cmd)

def Cmd.explicitName : Cmd → String
  | .mk n _ _ _ => n

def Cmd.use : Cmd → String
  | .mk _ u _ _ => u

def Cmd.runnable : Cmd → Bool
  | .mk _ _ r _ => r

def Cmd.children : Cmd → List Cmd
  | .mk _ _ _ ch => ch

/-- Command.Name (cobra.go:324): the explicit name when set, otherwise
the Use line truncated at the first space. -/
def Cmd.name (c : Cmd) : String :=
  if c.explicitName ≠ "" then c.explicitName
  else (c.use.splitOn " ").headD c.use

/-- Command.Find (cobra.go:156): when more than one argument remains and
the node has children, scan the children in order for the first whose
Name equals args[0] and recurse into it with args[1:]; otherwise return
the node itself when it is runnable, and none (the nil,nil,nil return)
when it is not.  The receiver-is-nil error branch of the source cannot
arise on value trees and is handled at the execute level. -/
def find : Cmd → List String → Option (Cmd × List String)
  | c, a0 :: a1 :: rest =>
    if c.children.isEmpty then
      if c.runnable then some (c, a0 :: a1 :: rest) else none
    else
      match c.children.find? (fun d => d.name == a0) with
      | some child => find child (a1 :: rest)
      | none => if c.runnable then some (c, a0 :: a1 :: rest) else none
  | c, args => if c.runnable then some (c, args) else none

/-- The child that Find would descend into, when there is one: defined
only when more than one argument remains and the node has children, as
the first child in insertion order whose Name equals args[0]. -/
def childMatch : Cmd → List String → Option Cmd
  | c, a0 :: _ :: _ =>
    if c.children.isEmpty then none
    else c.children.find? (fun d => d.name == a0)
  | _, _ => none

/-- Outcome of one dispatch: a Go runtime panic, an error return, or a
completed call of the Run action (recorded with the name of the target
and the positional arguments handed to Run). -/
inductive ExecResult where
  | panicked (msg : String)
  | failed (msg : String)
  | ran (name : String) (args : List String)
deriving DecidableEq

/-- Command.execute (cobra.go:182).  The first statement evaluates
args[0] to pre-build the unknown-subcommand error, so an empty argument
list is a runtime panic before anything else happens.  Then the nil
receiver check, then Find.  When Find returns a nil target with a nil
error, the source calls cmd.ParseFlags on the nil target, which
dereferences the nil pointer inside PersistentFlags and panics; the
pre-built unknown-subcommand error is overwritten on every non-panicking
path and is never returned.  Flag parsing itself (merge followed by
pflag Parse, returning either a parse error or the positional leftovers
for Run) is the external collaborator parse. -/
def execute (root : Option Cmd)
    (parse : Cmd → List String → Except String (List String)) :
    List String → ExecResult
  | [] => ExecResult.panicked "runtime error: index out of range"
  | a0 :: rest =>
    match root with
    | none => ExecResult.failed "Called Execute() on a nil Command"
    | some c =>
      match find c (a0 :: rest) with
      | none =>
        ExecResult.panicked
          "runtime error: invalid memory address or nil pointer dereference"
      | some (cmd, a) =>
        match parse cmd a with
        | Except.error msg => ExecResult.failed msg
        | Except.ok argWoFlags =>
          if cmd.runnable then ExecResult.ran cmd.name argWoFlags
          else
            ExecResult.panicked
              "runtime error: invalid memory address or nil pointer dereference"

/-- A registered flag: its name and the identity of the underlying
definition object (pflag passes *Flag by reference; the Nat stands for
that pointer identity). -/
abbrev Flag := String × Nat

/-- FlagSet.Lookup: the first registered flag with the given name. -/
def flookup (fs : List Flag) (n : String) : Option Flag :=
  fs.find? (fun f => f.1 == n)

/-- The VisitAll loop body of mergePersistentFlags (cobra.go:433): for
each flag of one ancestor persistent set in order, add it to the target
set when no flag of that name is present yet. -/
def visitMerge : List Flag → List Flag → List Flag
  | target, [] => target
  | target, f :: rest =>
    visitMerge (if (flookup target f.1).isNone then target ++ [f] else target)
      rest

/-- Command.mergePersistentFlags (cobra.go:428): rmerge starts at the
target node itself and climbs the parent chain to the root; at each node
that has persistent flags it merges them into the target local set.
The chain argument is the list of persistent-flag sets of the target,
its parent, its grandparent, ..., the root, in that order. -/
def mergePersistentFlags : List Flag → List (List Flag) → List Flag
  | target, [] => target
  | target, pfs :: rest =>
    mergePersistentFlags (if pfs.isEmpty then target else visitMerge target pfs)
      rest

/-- The mutable wiring of a set of command nodes addressed by Nat ids:
parent pointer, commander back-reference, and ordered children ids. -/
structure TreeState where
  parent : Nat → Option Nat
  cmdr : Nat → Option Nat
  children : Nat → List Nat

/-- Pointwise update of an assignment of node ids. -/
def fupd {α : Type} (f : Nat → α) (k : Nat) (v : α) : Nat → α :=
  fun n => if n = k then v else f n

/-- Outcome of AddCommand: the new state, or a panic together with the
state at the moment of the panic. -/
inductive AddResult where
  | ok (s : TreeState)
  | panicked (s : TreeState) (msg : String)

/-- Command.AddCommand (cobra.go:215): for each node in order, panic if
it is the receiver itself, otherwise set its parent to the receiver,
copy the receiver commander reference onto it (cmds[i].parent.cmdr with
parent just assigned), and append it to the receiver children. -/
def AddCommand (s : TreeState) (c : Nat) : List Nat → AddResult
  | [] => AddResult.ok s
  | x :: rest =>
    if x = c then AddResult.panicked s "Command cannot be a child of itself"
    else
      AddCommand
        { parent := fupd s.parent x (some c)
          cmdr := fupd s.cmdr x (s.cmdr c)
          children := fupd s.children c (s.children c ++ [x]) }
        c rest

/-- Command.CommandPath (cobra.go:249), loop body: while the current
node has a parent, prepend the parent name and a space, then move to the
parent.  The fuel counts loop iterations still allowed; none models a
walk that does not terminate within the given fuel. -/
def commandPathAux (par : Nat → Option Nat) (nm : Nat → String) :
    Nat → Nat → String → Option String
  | fuel, x, str =>
    match par x with
    | none => some str
    | some p =>
      match fuel with
      | 0 => none
      | Nat.succ f => commandPathAux par nm f p (nm p ++ " " ++ str)

/-- Command.CommandPath: start from the node name and run the loop. -/
def commandPath (par : Nat → Option Nat) (nm : Nat → String)
    (fuel n : Nat) : Option String :=
  commandPathAux par nm fuel n (nm n)

/-- The names of the strict ancestors of a node, root first, computed
along the parent pointers with the same fuel discipline. -/
def ancNames (par : Nat → Option Nat) (nm : Nat → String) :
    Nat → Nat → Option (List String)
  | fuel, x =>
    match par x with
    | none => some []
    | some p =>
      match fuel with
      | 0 => none
      | Nat.succ f => (ancNames par nm f p).map (fun l => l ++ [nm p])

/-- Join a list of names with single spaces. -/
def joinSpace : List String → String
  | [] => ""
  | s :: rest => List.foldl (fun acc t => acc ++ " " ++ t) s rest

/- Concrete instances used by witnesses and counterexamples. -/

/-- A runnable root with no children. -/
def rootRun : Cmd := Cmd.mk "root" "" true []

/-- A runnable child named sub. -/
def subA : Cmd := Cmd.mk "sub" "" true []

/-- A second, distinct child also named sub. -/
def subB : Cmd := Cmd.mk "sub" "other use" false []

/-- A non-runnable root with two children that share the name sub. -/
def dupRoot : Cmd := Cmd.mk "root" "" false [subA, subB]

/-- A non-runnable root with no children: Find on it yields the
nil,nil,nil outcome for every argument list. -/
def leafRoot : Cmd := Cmd.mk "root" "" false []

/-- A parse collaborator that consumes no flags. -/
def parse0 : Cmd → List String → Except String (List String) :=
  fun _ a => Except.ok a

/-- Initial wiring for the commander-propagation scenario: node 0 is a
top-level commander (its cmdr points at itself), nodes 1 and 2 are
standalone. -/
def c8Init : TreeState :=
  { parent := fun _ => none
    cmdr := fun n => if n = 0 then some 0 else none
    children := fun _ => [] }

/-- The state after attaching node 2 under node 1 (a standalone subtree
with one descendant). -/
def c8Mid : TreeState :=
  match AddCommand c8Init 1 [2] with
  | AddResult.ok s => s
  | AddResult.panicked s _ => s

/-- The state after then attaching the subtree root 1 under the
commander node 0. -/
def c8Final : TreeState :=
  match AddCommand c8Mid 0 [1] with
  | AddResult.ok s => s
  | AddResult.panicked s _ => s

/-- An empty wiring. -/
def s0 : TreeState :=
  { parent := fun _ => none, cmdr := fun _ => none, children := fun _ => [] }

/-- A parent assignment forming one chain 2 -> 1 -> 0. -/
def par0 : Nat → Option Nat :=
  fun n => if n = 0 then none else some (n - 1)

/-- Names for the chain nodes. -/
def nm0 : Nat → String := fun n => toString n

/-- Depth measure for the chain. -/
def depth0 : Nat → Nat := fun n => n

end Cobra

namespace Cobra

lemma flookup_nil (n : String) : flookup [] n = none := rfl

lemma flookup_cons (f : Flag) (fs : List Flag) (n : String) :
    flookup (f :: fs) n = if f.1 = n then some f else flookup fs n := by
  by_cases h : f.1 = n
  · simp [flookup, List.find?_cons_of_pos, h]
  · simp [flookup, List.find?_cons_of_neg, h]

lemma flookup_none_iff (fs : List Flag) (n : String) :
    flookup fs n = none ↔ ∀ f ∈ fs, f.1 ≠ n := by
  simp [flookup, List.find?_eq_none]

lemma flookup_append_some {l1 : List Flag} {n : String} {f : Flag}
    (l2 : List Flag) (h : flookup l1 n = some f) :
    flookup (l1 ++ l2) n = some f := by
  induction l1 with
  | nil => simp [flookup_nil] at h
  | cons g t ih =>
    rw [List.cons_append, flookup_cons]
    rw [flookup_cons] at h
    split at h
    · simp [*]
    · rw [if_neg (by assumption)]
      exact ih h

lemma flookup_append_none {l1 : List Flag} {n : String}
    (l2 : List Flag) (h : flookup l1 n = none) :
    flookup (l1 ++ l2) n = flookup l2 n := by
  induction l1 with
  | nil => simp
  | cons g t ih =>
    rw [List.cons_append, flookup_cons]
    rw [flookup_cons] at h
    split at h
    · exact absurd h (by simp)
    · rw [if_neg (by assumption)]
      exact ih h

lemma vm_some {t : List Flag} {n : String} {f : Flag}
    (pfs : List Flag) (h : flookup t n = some f) :
    flookup (visitMerge t pfs) n = some f := by
  induction pfs generalizing t with
  | nil => simpa [visitMerge] using h
  | cons g rest ih =>
    simp only [visitMerge]
    apply ih
    split
    · exact flookup_append_some [g] h
    · exact h

lemma vm_none {t : List Flag} {n : String}
    {pfs : List Flag} (h1 : flookup t n = none) (h2 : flookup pfs n = none) :
    flookup (visitMerge t pfs) n = none := by
  induction pfs generalizing t with
  | nil => exact h1
  | cons g rest ih =>
    have hg : g.1 ≠ n := (flookup_none_iff _ _).mp h2 g (by simp)
    have h2r : flookup rest n = none := by
      rw [flookup_none_iff] at h2 ⊢
      intro f hf
      exact h2 f (by simp [hf])
    simp only [visitMerge]
    apply ih ?_ h2r
    split
    · rw [flookup_append_none [g] h1, flookup_cons, if_neg hg, flookup_nil]
    · exact h1

lemma vm_gain {t : List Flag} {n : String} {f : Flag}
    {pfs : List Flag} (h1 : flookup t n = none) (h2 : flookup pfs n = some f) :
    flookup (visitMerge t pfs) n = some f := by
  induction pfs generalizing t with
  | nil => simp [flookup_nil] at h2
  | cons g rest ih =>
    rw [flookup_cons] at h2
    by_cases hg : g.1 = n
    · rw [if_pos hg] at h2
      have hcond : (flookup t g.1).isNone := by rw [hg, h1]; rfl
      have hadd : flookup (t ++ [g]) n = some g := by
        rw [flookup_append_none [g] h1, flookup_cons, if_pos hg]
      simp only [visitMerge, if_pos hcond]
      rw [← h2]
      exact vm_some rest hadd
    · rw [if_neg hg] at h2
      simp only [visitMerge]
      apply ih ?_ h2
      split
      · rw [flookup_append_none [g] h1, flookup_cons, if_neg hg, flookup_nil]
      · exact h1

lemma vm_fix {t : List Flag} {pfs : List Flag}
    (h : ∀ f ∈ pfs, (flookup t f.1).isSome) : visitMerge t pfs = t := by
  induction pfs with
  | nil => rfl
  | cons g rest ih =>
    have hg : (flookup t g.1).isSome := h g (by simp)
    have hcond : ¬ ((flookup t g.1).isNone = true) := by
      cases hv : flookup t g.1
      · rw [hv] at hg; simp at hg
      · simp
    simp only [visitMerge, if_neg hcond]
    exact ih (fun f hf => h f (by simp [hf]))

lemma vm_mem {t : List Flag} {pfs : List Flag} {f : Flag} (hf : f ∈ pfs) :
    (flookup (visitMerge t pfs) f.1).isSome := by
  cases hs : flookup t f.1 with
  | some g => rw [vm_some pfs hs]; rfl
  | none =>
    cases hp : flookup pfs f.1 with
    | some g => rw [vm_gain hs hp]; rfl
    | none => exact absurd rfl ((flookup_none_iff _ _).mp hp f hf)

lemma mp_some {t : List Flag} {n : String} {f : Flag}
    (chain : List (List Flag)) (h : flookup t n = some f) :
    flookup (mergePersistentFlags t chain) n = some f := by
  induction chain generalizing t with
  | nil => simpa [mergePersistentFlags] using h
  | cons p rest ih =>
    simp only [mergePersistentFlags]
    apply ih
    split
    · exact h
    · exact vm_some p h

lemma mp_isSome {t : List Flag} {n : String}
    (chain : List (List Flag)) (h : (flookup t n).isSome) :
    (flookup (mergePersistentFlags t chain) n).isSome := by
  cases hv : flookup t n with
  | none => rw [hv] at h; simp at h
  | some f => rw [mp_some chain hv]; rfl

lemma mp_mem {pfs : List Flag} {f : Flag}
    (t : List Flag) (chain : List (List Flag))
    (hp : pfs ∈ chain) (hf : f ∈ pfs) :
    (flookup (mergePersistentFlags t chain) f.1).isSome := by
  induction chain generalizing t with
  | nil => cases hp
  | cons p rest ih =>
    simp only [mergePersistentFlags]
    rcases List.mem_cons.mp hp with h | h
    · subst h
      apply mp_isSome
      cases hpe : pfs.isEmpty
      · simpa [hpe] using vm_mem (t := t) hf
      · rw [List.isEmpty_iff] at hpe
        subst hpe
        cases hf
    · exact ih _ h

lemma mp_fix {t : List Flag} {chain : List (List Flag)}
    (h : ∀ pfs ∈ chain, ∀ f ∈ pfs, (flookup t f.1).isSome) :
    mergePersistentFlags t chain = t := by
  induction chain with
  | nil => rfl
  | cons p rest ih =>
    have hstep : (if p.isEmpty then t else visitMerge t p) = t := by
      split
      · rfl
      · exact vm_fix (h p (by simp))
    simp only [mergePersistentFlags, hstep]
    exact ih (fun pfs hpfs f hf => h pfs (by simp [hpfs]) f hf)

end Cobra

namespace Cobra

/-- Claim C4, counterexample to the claim as stated: with an empty local
flag set, the target own inheritable set defining x (identity 9), the
parent inheritable set defining x (identity 1) and the grandparent
inheritable set defining x (identity 2), the merged local set resolves x
to the target own inheritable definition, not to the parent one: the
merge starts at the target itself, so a target inheritable flag beats
the parent. -/
theorem c4_counterexample :
    flookup ([] : List Flag) "x" = none ∧
    flookup [(("x" : String), 1)] "x" = some ("x", 1) ∧
    flookup [(("x" : String), 2)] "x" = some ("x", 2) ∧
    flookup (mergePersistentFlags [] [[("x", 9)], [("x", 1)], [("x", 2)]]) "x"
      = some ("x", 9) ∧
    (("x", 9) : Flag) ≠ ("x", 1) := by decide

/-- Claim C4 (amended): for every target whose local flag set and whose
own inheritable flag set do not define the name, while the parent
inheritable set does, mergePersistentFlags resolves the name to the
parent definition, never to the grandparent one, whatever the
grandparent set holds. -/
theorem mergePersistentFlags_nearest_ancestor
    (target tP pP gP : List Flag) (n : String) (fp : Flag)
    (h1 : flookup target n = none) (h2 : flookup tP n = none)
    (h3 : flookup pP n = some fp) :
    flookup (mergePersistentFlags target [tP, pP, gP]) n = some fp := by
  have ht1 : flookup (if tP.isEmpty then target else visitMerge target tP) n
      = none := by
    split
    · exact h1
    · exact vm_none h1 h2
  have hpempty : ¬ (pP.isEmpty = true) := by
    cases pP with
    | nil => simp [flookup_nil] at h3
    | cons a l => simp
  have hmid :
      flookup (visitMerge (if tP.isEmpty then target else visitMerge target tP) pP) n
        = some fp := vm_gain ht1 h3
  have e1 : mergePersistentFlags target [tP, pP, gP]
      = mergePersistentFlags
          (visitMerge (if tP.isEmpty then target else visitMerge target tP) pP)
          [gP] := by
    show mergePersistentFlags
        (if pP.isEmpty then (if tP.isEmpty then target else visitMerge target tP)
         else visitMerge (if tP.isEmpty then target else visitMerge target tP) pP)
        [gP] = _
    rw [if_neg hpempty]
  rw [e1]
  show flookup
      (if gP.isEmpty then
        visitMerge (if tP.isEmpty then target else visitMerge target tP) pP
       else
        visitMerge
          (visitMerge (if tP.isEmpty then target else visitMerge target tP) pP)
          gP) n = some fp
  split
  · exact hmid
  · exact vm_some gP hmid

/-- Witness for the amended C4 theorem at a concrete three-level chain. -/
theorem mergePersistentFlags_nearest_ancestor_witness :
    (flookup ([] : List Flag) "x" = none ∧
     flookup [(("v" : String), 7)] "x" = none ∧
     flookup [(("x" : String), 1)] "x" = some ("x", 1)) ∧
    flookup (mergePersistentFlags [] [[("v", 7)], [("x", 1)], [("x", 2)]]) "x"
      = some ("x", 1) :=
  ⟨⟨by decide, by decide, by decide⟩,
   mergePersistentFlags_nearest_ancestor [] [("v", 7)] [("x", 1)] [("x", 2)]
     "x" ("x", 1) (by decide) (by decide) (by decide)⟩

/-- Claim C5: a name already present in the target local flag set is
never replaced by the merge: after mergePersistentFlags over any
ancestor chain, looking the name up still yields the original entry. -/

theorem mergePersistentFlags_local_shadow
    (target : List Flag) (chain : List (List Flag)) (n : String) (f : Flag)
    (h : flookup target n = some f) :
    flookup (mergePersistentFlags target chain) n = some f :=
  mp_some chain h

/-- Witness for the C5 theorem at a concrete target and chain. -/
theorem mergePersistentFlags_local_shadow_witness :
    flookup [(("x" : String), 5)] "x" = some ("x", 5) ∧
    flookup (mergePersistentFlags [("x", 5)] [[("x", 9)], [("x", 1)]]) "x"
      = some ("x", 5) :=
  ⟨by decide,
   mergePersistentFlags_local_shadow [("x", 5)] [[("x", 9)], [("x", 1)]] "x"
     ("x", 5) (by decide)⟩

/-- Claim C6: mergePersistentFlags is idempotent: running the merge a
second time over the same ancestor chain leaves the already merged
local flag set unchanged, entry for entry. -/
theorem mergePersistentFlags_idempotent
    (target : List Flag) (chain : List (List Flag)) :
    mergePersistentFlags (mergePersistentFlags target chain) chain
      = mergePersistentFlags target chain :=
  mp_fix (fun _ hp _ hf => mp_mem target chain hp hf)

lemma find?_first {α : Type} (p : α → Bool) (pre : List α) (d : α)
    (suf : List α) (h1 : ∀ x ∈ pre, p x = false) (h2 : p d = true) :
    (pre ++ d :: suf).find? p = some d := by
  induction pre with
  | nil => simp [List.find?_cons_of_pos, h2]
  | cons x xs ih =>
    have hx : ¬ (p x = true) := by simp [h1 x (by simp)]
    rw [List.cons_append, List.find?_cons_of_neg _ hx]
    exact ih (fun y hy => h1 y (by simp [hy]))

/-- Claim C2: with more than one argument remaining and a children list
that splits as pre ++ d :: suf where no node of pre has name args[0] and
d has name args[0], Find recurses into d, the first matching child in
insertion order, with args[1:]; with duplicate sibling names the first
one wins. -/
theorem find_first_child (c d : Cmd) (pre suf : List Cmd)
    (a0 a1 : String) (rest : List String)
    (hch : c.children = pre ++ d :: suf)
    (hpre : ∀ p ∈ pre, p.name ≠ a0) (hd : d.name = a0) :
    find c (a0 :: a1 :: rest) = find d (a1 :: rest) := by
  have hfind : c.children.find? (fun x => x.name == a0) = some d := by
    rw [hch]
    exact find?_first _ pre d suf (fun x hx => by simp [hpre x hx])
      (by simp [hd])
  have hemp : c.children.isEmpty = false := by
    rw [hch]; cases pre <;> rfl
  simp [find, hemp, hfind]

/-- Witness for the C2 theorem: two siblings both named sub; the first one is taken. -/
theorem find_first_child_witness :
    (dupRoot.children = [] ++ subA :: [subB] ∧
     (∀ p ∈ ([] : List Cmd), p.name ≠ "sub") ∧ subA.name = "sub") ∧
    find dupRoot ["sub", "z"] = find subA ["z"] :=
  ⟨⟨rfl, by simp, rfl⟩,
   find_first_child dupRoot subA [] [subB] "sub" "z" [] rfl (by simp) rfl⟩

/-- Claim C3: whenever no child is taken (zero or one remaining
argument, no children, or no child whose name equals args[0]), Find
returns the node itself with the argument list passed through unchanged
when the node is runnable, and the nil result when it is not.  The
particular case of a runnable root and an empty argument list is the
witness below. -/
theorem find_passthrough (c : Cmd) (args : List String)
    (h : childMatch c args = none) :
    find c args = if c.runnable then some (c, args) else none := by
  cases args with
  | nil => rfl
  | cons a0 t =>
    cases t with
    | nil => rfl
    | cons a1 rest =>
      by_cases hemp : c.children.isEmpty
      · simp [find, hemp]
      · have hemp2 : c.children.isEmpty = false := by
          simpa using hemp
        have hf : c.children.find? (fun x => x.name == a0) = none := by
          simpa [childMatch, hemp2] using h
        simp [find, hemp2, hf]

/-- Witness for the C3 theorem: a runnable root and an empty argument list. -/
theorem find_passthrough_witness :
    childMatch rootRun [] = none ∧
    find rootRun [] = (if rootRun.runnable then some (rootRun, []) else none) ∧
    find rootRun [] = some (rootRun, []) :=
  ⟨rfl, find_passthrough rootRun [] rfl, rfl⟩

/-- Claim C1, what the code actually does at the claimed input: for
every non-nil root and non-empty argument list on which Find returns the
nil target with nil error, execute does not return the prepared unknown
subcommand error: it calls ParseFlags on the nil target and panics with
a nil pointer dereference.  The claim describes the evident intent of
the dead error assignment at cobra.go:183; the code contradicts it. -/
theorem execute_unknown_subcommand_panics (c : Cmd)
    (parse : Cmd → List String → Except String (List String))
    (args : List String) (h : args ≠ []) (hf : find c args = none) :
    execute (some c) parse args
      = ExecResult.panicked
          "runtime error: invalid memory address or nil pointer dereference" := by
  cases args with
  | nil => exact absurd rfl h
  | cons a0 rest => simp [execute, hf]

/-- Witness for the C1 theorem: a non-runnable childless root and the token bogus. -/
theorem execute_unknown_subcommand_panics_witness :
    ((["bogus"] : List String) ≠ [] ∧ find leafRoot ["bogus"] = none) ∧
    execute (some leafRoot) parse0 ["bogus"]
      = ExecResult.panicked
          "runtime error: invalid memory address or nil pointer dereference" :=
  ⟨⟨by simp, rfl⟩,
   execute_unknown_subcommand_panics leafRoot parse0 ["bogus"] (by simp) rfl⟩

/-- Claim C10: execute on an empty argument list panics indexing
args[0] before resolution begins, for every root, even though Find alone
on a runnable node with an empty argument list would return that node
with empty residual arguments. -/
theorem execute_empty_args_panics (root : Option Cmd)
    (parse : Cmd → List String → Except String (List String)) (c : Cmd) :
    execute root parse [] = ExecResult.panicked "runtime error: index out of range" ∧
    find c [] = (if c.runnable then some (c, []) else none) :=
  ⟨rfl, rfl⟩

end Cobra

namespace Cobra

/-- Claim C7: when the receiver occurs in the argument list of
AddCommand, the call panics; the receiver is never appended to its own
children (its occurrence count there is unchanged) and its parent
pointer is unchanged, so no node ever becomes its own parent. -/
theorem AddCommand_self_panics (s : TreeState) (c : Nat) (cmds : List Nat)
    (h : c ∈ cmds) :
    ∃ s2 msg, AddCommand s c cmds = AddResult.panicked s2 msg ∧
      (s2.children c).count c = (s.children c).count c ∧
      s2.parent c = s.parent c := by
  induction cmds generalizing s with
  | nil => cases h
  | cons x rest ih =>
    by_cases hx : x = c
    · subst hx
      refine ⟨s, "Command cannot be a child of itself", ?_, rfl, rfl⟩
      simp [AddCommand]
    · have hc : c ∈ rest := by
        rcases List.mem_cons.mp h with h1 | h1
        · exact absurd h1.symm hx
        · exact h1
      obtain ⟨s2, msg, heq, hcount, hpar⟩ :=
        ih hc (s := { parent := fupd s.parent x (some c)
                      cmdr := fupd s.cmdr x (s.cmdr c)
                      children := fupd s.children c (s.children c ++ [x]) })
      refine ⟨s2, msg, ?_, ?_, ?_⟩
      · simpa [AddCommand, hx] using heq
      · rw [hcount]
        show ((fupd s.children c (s.children c ++ [x])) c).count c
          = (s.children c).count c
        simp [fupd, List.count_append, List.count_cons, hx]
      · rw [hpar]
        show (fupd s.parent x (some c)) c = s.parent c
        simp only [fupd]
        exact if_neg (fun hq => hx hq.symm)

/-- Witness for the C7 theorem: adding the receiver after one ordinary child. -/
theorem AddCommand_self_panics_witness :
    (0 ∈ [5, 0]) ∧
    ∃ s2 msg, AddCommand s0 0 [5, 0] = AddResult.panicked s2 msg ∧
      (s2.children 0).count 0 = (s0.children 0).count 0 ∧
      s2.parent 0 = s0.parent 0 :=
  ⟨by decide, AddCommand_self_panics s0 0 [5, 0] (by decide)⟩

/-- Claim C8, counterexample to the claim as stated: node 2 is attached
under node 1 while node 1 is standalone, then the subtree rooted at 1 is
attached under node 0, which references a commander.  The directly
attached node 1 receives the commander reference, but its descendant 2,
part of the attached subtree, keeps none: propagation is not
transitive. -/
theorem c8_counterexample :
    c8Init.cmdr 0 = some 0 ∧
    c8Final.parent 1 = some 0 ∧
    c8Final.parent 2 = some 1 ∧
    c8Final.cmdr 1 = some 0 ∧
    c8Final.cmdr 2 = none :=
  ⟨rfl, rfl, rfl, rfl, rfl⟩

/-- Claim C8 (amended): a successful AddCommand copies the receiver
commander reference onto exactly the directly added nodes; every other
node, including descendants of the added subtree attached earlier, keeps
its previous commander reference. -/
theorem AddCommand_cmdr_direct_only (s : TreeState) (c : Nat)
    (cmds : List Nat) (s2 : TreeState)
    (h : AddCommand s c cmds = AddResult.ok s2) :
    (∀ x ∈ cmds, s2.cmdr x = s.cmdr c) ∧
    (∀ y, y ∉ cmds → s2.cmdr y = s.cmdr y) := by
  induction cmds generalizing s with
  | nil =>
    have hs : s = s2 := by simpa [AddCommand] using h
    subst hs
    exact ⟨fun x hx => absurd hx (List.not_mem_nil x),
           fun y _ => rfl⟩
  | cons x rest ih =>
    by_cases hx : x = c
    · rw [show AddCommand s c (x :: rest)
          = AddResult.panicked s "Command cannot be a child of itself" from by
        simp [AddCommand, hx]] at h
      simp at h
    · have h2 : AddCommand
          ({ parent := fupd s.parent x (some c)
             cmdr := fupd s.cmdr x (s.cmdr c)
             children := fupd s.children c (s.children c ++ [x]) } : TreeState)
          c rest = AddResult.ok s2 := by
        simpa [AddCommand, hx] using h
      obtain ⟨ha, hb⟩ :=
        ih (s := { parent := fupd s.parent x (some c)
                   cmdr := fupd s.cmdr x (s.cmdr c)
                   children := fupd s.children c (s.children c ++ [x]) }) h2
      constructor
      · intro z hz
        rcases List.mem_cons.mp hz with h1 | h1
        · subst h1
          by_cases hzr : z ∈ rest
          · rw [ha z hzr]
            show (fupd s.cmdr z (s.cmdr c)) c = s.cmdr c
            exact if_neg (fun hq => hx hq.symm)
          · rw [hb z hzr]
            show (fupd s.cmdr z (s.cmdr c)) z = s.cmdr c
            exact if_pos rfl
        · rw [ha z h1]
          show (fupd s.cmdr x (s.cmdr c)) c = s.cmdr c
          exact if_neg (fun hq => hx hq.symm)
      · intro y hy
        have hyx : y ≠ x := fun hq => hy (by simp [hq])
        have hyr : y ∉ rest := fun hq => hy (by simp [hq])
        rw [hb y hyr]
        show (fupd s.cmdr x (s.cmdr c)) y = s.cmdr y
        exact if_neg hyx

/-- Witness for the amended C8 theorem on the concrete scenario states. -/
theorem AddCommand_cmdr_direct_only_witness :
    AddCommand c8Mid 0 [1] = AddResult.ok c8Final ∧
    ((∀ x ∈ ([1] : List Nat), c8Final.cmdr x = c8Mid.cmdr 0) ∧
     (∀ y, y ∉ ([1] : List Nat) → c8Final.cmdr y = c8Mid.cmdr y)) :=
  ⟨rfl, AddCommand_cmdr_direct_only c8Mid 0 [1] c8Final rfl⟩

lemma joinSpace_merge (A : List String) (x y : String) :
    joinSpace (A ++ [x ++ " " ++ y]) = joinSpace (A ++ [x, y]) := by
  cases A with
  | nil => rfl
  | cons a A2 =>
    simp only [List.cons_append, joinSpace]
    rw [List.foldl_append, List.foldl_append]
    simp [String.append_assoc]

lemma ancNames_root {par : Nat → Option Nat} (nm : Nat → String)
    (fuel : Nat) {x : Nat} (hp : par x = none) :
    ancNames par nm fuel x = some [] := by
  cases fuel <;> rw [ancNames, hp]

lemma ancNames_zero {par : Nat → Option Nat} (nm : Nat → String)
    {x p : Nat} (hp : par x = some p) :
    ancNames par nm 0 x = none := by
  rw [ancNames, hp]

lemma ancNames_succ {par : Nat → Option Nat} (nm : Nat → String)
    (f : Nat) {x p : Nat} (hp : par x = some p) :
    ancNames par nm (f + 1) x
      = (ancNames par nm f p).map (fun l => l ++ [nm p]) := by
  rw [ancNames, hp]

lemma commandPathAux_root {par : Nat → Option Nat} (nm : Nat → String)
    (fuel : Nat) {x : Nat} (str : String) (hp : par x = none) :
    commandPathAux par nm fuel x str = some str := by
  cases fuel <;> rw [commandPathAux, hp]

lemma commandPathAux_succ {par : Nat → Option Nat} (nm : Nat → String)
    (f : Nat) {x p : Nat} (str : String) (hp : par x = some p) :
    commandPathAux par nm (f + 1) x str
      = commandPathAux par nm f p (nm p ++ " " ++ str) := by
  rw [commandPathAux, hp]

lemma commandPathAux_ancNames (par : Nat → Option Nat) (nm : Nat → String) :
    ∀ (fuel x : Nat) (l : List String) (str : String),
      ancNames par nm fuel x = some l →
      commandPathAux par nm fuel x str = some (joinSpace (l ++ [str])) := by
  intro fuel
  induction fuel with
  | zero =>
    intro x l str h
    cases hp : par x with
    | none =>
      rw [ancNames_root nm 0 hp] at h
      injection h with h2
      subst h2
      rw [commandPathAux_root nm 0 str hp]
      rfl
    | some p =>
      rw [ancNames_zero nm hp] at h
      simp at h
  | succ f ih =>
    intro x l str h
    cases hp : par x with
    | none =>
      rw [ancNames_root nm (f + 1) hp] at h
      injection h with h2
      subst h2
      rw [commandPathAux_root nm (f + 1) str hp]
      rfl
    | some p =>
      rw [ancNames_succ nm f hp] at h
      cases hl : ancNames par nm f p with
      | none => rw [hl] at h; simp at h
      | some l0 =>
        rw [hl] at h
        simp at h
        rw [commandPathAux_succ nm f str hp]
        rw [ih p l0 (nm p ++ " " ++ str) hl]
        rw [← h, List.append_assoc, joinSpace_merge]
        rfl

lemma ancNames_total (par : Nat → Option Nat) (nm : Nat → String)
    (d : Nat → Nat) (hd : ∀ a b, par a = some b → d b < d a) :
    ∀ (k x : Nat), d x ≤ k → ∃ l, ancNames par nm k x = some l := by
  intro k
  induction k with
  | zero =>
    intro x hx
    cases hp : par x with
    | none => exact ⟨[], ancNames_root nm 0 hp⟩
    | some p => exact absurd (hd x p hp) (by omega)
  | succ f ih =>
    intro x hx
    cases hp : par x with
    | none => exact ⟨[], ancNames_root nm (f + 1) hp⟩
    | some p =>
      have hdp : d p ≤ f := by
        have := hd x p hp
        omega
      obtain ⟨l0, hl0⟩ := ih p hdp
      exact ⟨l0 ++ [nm p], by rw [ancNames_succ nm f hp, hl0]; rfl⟩

/-- Claim C9: on any parent assignment admitting a decreasing depth
measure (a tree built without self-parenting, hence acyclic), the
CommandPath loop terminates within depth-many iterations and returns the
names of the nodes on the root-to-node path joined by single spaces. -/
theorem commandPath_terminates (par : Nat → Option Nat) (nm : Nat → String)
    (d : Nat → Nat) (hd : ∀ a b, par a = some b → d b < d a) (n : Nat) :
    ∃ l, ancNames par nm (d n) n = some l ∧
      commandPath par nm (d n) n = some (joinSpace (l ++ [nm n])) := by
  obtain ⟨l, hl⟩ := ancNames_total par nm d hd (d n) n (Nat.le_refl _)
  exact ⟨l, hl, commandPathAux_ancNames par nm (d n) n l (nm n) hl⟩

/-- Witness for the C9 theorem on the concrete chain 0, 1, 2. -/
theorem commandPath_terminates_witness :
    (∀ a b, par0 a = some b → depth0 b < depth0 a) ∧
    ∃ l, ancNames par0 nm0 (depth0 2) 2 = some l ∧
      commandPath par0 nm0 (depth0 2) 2 = some (joinSpace (l ++ [nm0 2])) := by
  have hd : ∀ a b, par0 a = some b → depth0 b < depth0 a := by
    intro a b hab
    simp only [par0] at hab
    by_cases ha : a = 0
    · simp [ha] at hab
    · rw [if_neg ha] at hab
      injection hab with h2
      simp only [depth0]
      omega
  exact ⟨hd, commandPath_terminates par0 nm0 depth0 hd 2⟩

end Cobra
